import Mathlib

/-
Verification of the AOSPI5 build-file patch scripts.

The repository consists of standalone Python scripts that patch an Android
build blueprint file by literal string substitution:

  * scripts/fix_virtualization.py  ("v1"): for each module in a fixed list,
    if `name: "<m>",` occurs and `name: "<m>",\n    enabled: false` does not,
    substitute every occurrence of the regex `(name: "<m>",)\n` (a literal
    pattern, as the module names contain no regex metacharacters) by
    `\1\n    enabled: false,` and print `Disabled: <m>`.
  * scripts/fix_virtualization3.py ("v3"): for each module, search for the
    leftmost match of `(name: "<m>",\n)([ \t]+)` (greedy indent); if the 50
    characters after the match, stripped, start with `enabled:`, report
    "Already has enabled"; otherwise replace the first occurrence of the
    matched text `group(1)+indent` by `group(1)+indent+enabled: false,\n+indent`
    and report "Disabled"; if there is no match, report "Not found".
  * scripts/fix_virtualization4.py ("v4"): for each (old, new) pair, if `old`
    occurs in the content, replace all occurrences by `new`.
  * scripts/fix_profiling.py: one unconditional `content.replace(old, new)`.

Strings are embedded as `List Char`; `replaceAll`, `replaceFirst` and
`isSubstr` mirror Python's `str.replace(old, new)`, `str.replace(old, new, 1)`
and the `in` operator for a nonempty pattern (the scripts only use nonempty
patterns; for an empty pattern the embeddings below are the identity).
-/

namespace Aosp

/-- Strings of the patched file, embedded as lists of characters. -/
abbrev Str := List Char

/-- Per-rule outcome of the patcher, as in the specification's PatchResult. -/
inductive Outcome
  | applied
  | skipped
  | notFound
deriving DecidableEq

/-- Python's substring test `pat in s` (scans every position; the empty
pattern is a substring of everything). -/
def isSubstr (pat : Str) : Str → Bool
  | [] => pat.isEmpty
  | c :: cs => pat.isPrefixOf (c :: cs) || isSubstr pat cs

/-- Auxiliary scanner for `replaceAll`: while the skip counter is positive
the characters of an already-emitted match are consumed; at zero, a match of
`old` emits `new` and sets the counter to skip the rest of the match.  The
skip counter keeps the recursion structural, so that concrete runs reduce. -/
def replAux (old new : Str) : Nat → Str → Str
  | _, [] => []
  | skip + 1, _ :: cs => replAux old new skip cs
  | 0, c :: cs =>
    if old.isPrefixOf (c :: cs) && !old.isEmpty
    then new ++ replAux old new (old.length - 1) cs
    else c :: replAux old new 0 cs

/-- Python's `s.replace(old, new)` for nonempty `old`: replace every
leftmost non-overlapping occurrence.  For `old = []` this is the identity
(the scripts never replace an empty pattern). -/
def replaceAll (old new : Str) (s : Str) : Str := replAux old new 0 s

/-- Python's `s.replace(old, new, 1)` for nonempty `old`: replace the first
occurrence only. -/
def replaceFirst (old new : Str) : Str → Str
  | [] => []
  | c :: cs =>
    if old.isPrefixOf (c :: cs) && !old.isEmpty
    then new ++ (c :: cs).drop old.length
    else c :: replaceFirst old new cs

/-- The anchor literal `name: "<m>",` used by v1 and v3 (f-string
`f'name: "{module}",'`). -/
def anchor (m : Str) : Str := "name: \"".toList ++ m ++ "\",".toList

/-- The anchor followed by a newline: regex group 1 of both scripts'
patterns, `(name: "<m>",)\n` resp. `(name: "<m>",\n)`. -/
def ancNl (m : Str) : Str := anchor m ++ "\n".toList

/-- The literal whose presence makes v1 skip a module:
`f'name: "{module}",\n    enabled: false'`. -/
def disabledMark (m : Str) : Str := anchor m ++ "\n    enabled: false".toList

/-- The text v1 substitutes for each occurrence of `ancNl m`: the regex
replacement `\1\n    enabled: false,` (note: re.sub consumes the newline of
the match and the replacement carries no trailing newline). -/
def v1Repl (m : Str) : Str := anchor m ++ "\n    enabled: false,".toList

/-- One iteration of fix_virtualization.py's `for module in modules_to_disable`
loop: the content after the iteration, and whether `Disabled: <m>` was
printed (the guard `anchor in content and disabledMark not in content`). -/
def v1Step (C : Str) (m : Str) : Str × Bool :=
  if isSubstr (anchor m) C && !(isSubstr (disabledMark m) C)
  then (replaceAll (ancNl m) (v1Repl m) C, true)
  else (C, false)

/-- fix_virtualization.py's whole loop: final content and, per module, whether
a `Disabled:` line was printed. -/
def v1Run (C : Str) : List Str → Str × List Bool
  | [] => (C, [])
  | m :: ms =>
    let x := v1Step C m
    let rest := v1Run x.1 ms
    (rest.1, x.2 :: rest.2)

/-- The eight module names hardcoded in fix_virtualization.py. -/
def v1Mods : List Str :=
  ["microdroid_kernel_signed", "microdroid_kernel_16k_signed",
   "microdroid_gki_kernel_signed", "microdroid_gki_kernel_16k_signed",
   "microdroid_kernel", "microdroid_kernel_16k",
   "microdroid_gki_kernel", "microdroid_gki_kernel_16k"].map String.toList

/-- Successful file operations performed by a run of the script. -/
inductive FileEvent
  | fileRead
  | fileWrite (content : Str)
deriving DecidableEq

/-- Whole-script model of fix_virtualization.py over a filesystem holding the
target file's content (`none` = the path does not exist).  `open(filepath)`
raises when the file is missing, so the run performs no further file
operation and the uncaught exception exits the interpreter with a nonzero
status; otherwise the script reads once, transforms in memory, writes once,
and exits 0.  Returns (final file state, exit status, successful file
operations in order). -/
def v1Script (fs : Option Str) : Option Str × Nat × List FileEvent :=
  match fs with
  | none => (none, 1, [])
  | some c =>
    (some (v1Run c v1Mods).1, 0,
     [FileEvent.fileRead, FileEvent.fileWrite (v1Run c v1Mods).1])

/-- Characters matched by the `[ \t]` class of fix_virtualization3.py. -/
def isIndentChar (c : Char) : Bool := c == ' ' || c == '\t'

/-- Whether fix_virtualization3.py's regex `(name: "<m>",\n)([ \t]+)` matches
at the start of `s` (with `anc = ancNl m`): the anchor is a prefix and is
followed by at least one space or tab. -/
def v3Cond (anc : Str) (s : Str) : Bool :=
  anc.isPrefixOf s && !((s.drop anc.length).takeWhile isIndentChar).isEmpty

/-- `re.search` of fix_virtualization3.py's pattern: leftmost match position,
greedy `([ \t]+)`.  Returns the matched indent (group 2) and the remainder
of the content after the match (`content[match.end():]`). -/
def v3Search (anc : Str) : Str → Option (Str × Str)
  | [] => none
  | c :: cs =>
    if v3Cond anc (c :: cs)
    then some (((c :: cs).drop anc.length).takeWhile isIndentChar,
               ((c :: cs).drop anc.length).dropWhile isIndentChar)
    else v3Search anc cs

/-- Python `str.strip`'s whitespace characters (ASCII). -/
def isPyWS (c : Char) : Bool :=
  c == ' ' || c == '\t' || c == '\n' || c == '\r' || c == '\x0b' || c == '\x0c'

/-- Strip trailing whitespace (right half of Python's `str.strip()`). -/
def pyStripRight (s : Str) : Str := (s.reverse.dropWhile isPyWS).reverse

/-- Python's `str.strip()`. -/
def pyStrip (s : Str) : Str := pyStripRight (s.dropWhile isPyWS)

/-- The literal `enabled:` of the `check_after.strip().startswith('enabled:')`
test. -/
def enabledStr : Str := "enabled:".toList

/-- The inserted line `enabled: false,\n` of fix_virtualization3.py's
replacement. -/
def efLine : Str := "enabled: false,\n".toList

/-- fix_virtualization3.py's already-present check on the content following
the match: `content[match.end():match.end()+50].strip().startswith('enabled:')`. -/
def v3Check (after : Str) : Bool := enabledStr.isPrefixOf (pyStrip (after.take 50))

/-- One iteration of fix_virtualization3.py's loop: resulting content and the
reported outcome (`Disabled:`, `Already has enabled:`, `Not found:`). -/
def v3Step (C : Str) (m : Str) : Str × Outcome :=
  match v3Search (ancNl m) C with
  | none => (C, Outcome.notFound)
  | some (ind, after) =>
    if v3Check after then (C, Outcome.skipped)
    else (replaceFirst (ancNl m ++ ind) (ancNl m ++ ind ++ efLine ++ ind) C,
          Outcome.applied)

/-- fix_virtualization3.py's whole loop: final content and the ordered list
of per-module outcomes (one printed line each). -/
def v3Run (C : Str) : List Str → Str × List Outcome
  | [] => (C, [])
  | m :: ms =>
    let x := v3Step C m
    let rest := v3Run x.1 ms
    (rest.1, x.2 :: rest.2)

/-- One iteration of fix_virtualization4.py's loop over `(old, new)` pairs:
`if old in content: content = content.replace(old, new)` (all occurrences);
the else branch is the unreported not-found case. -/
def v4Step (C : Str) (r : Str × Str) : Str × Outcome :=
  if isSubstr r.1 C
  then (replaceAll r.1 r.2 C, Outcome.applied)
  else (C, Outcome.notFound)

/-- fix_virtualization4.py's whole loop. -/
def v4Run (C : Str) : List (Str × Str) → Str × List Outcome
  | [] => (C, [])
  | r :: rs =>
    let x := v4Step C r
    let rest := v4Run x.1 rs
    (rest.1, x.2 :: rest.2)

/-- The `old_sdk` literal of fix_profiling.py. -/
def oldSdk : Str :=
  ("sdk \x7b\n    name: \"profiling-module-sdk\",\n    apexes: [\n        \"com.android.profiling\",\n    ],\n\x7d").toList

/-- The `new_sdk` literal of fix_profiling.py. -/
def newSdk : Str :=
  ("sdk \x7b\n    enabled: select(release_flag(\"RELEASE_PACKAGE_PROFILING_MODULE\"), \x7b\n        true: true,\n        false: false,\n    \x7d),\n    name: \"profiling-module-sdk\",\n    apexes: [\n        \"com.android.profiling\",\n    ],\n\x7d").toList

/-- fix_profiling.py's single transformation: `content.replace(old_sdk, new_sdk)`. -/
def fixProfiling (C : Str) : Str := replaceAll oldSdk newSdk C

/-- Split a content string into its lines (separators removed), so that the
indentation of the line inserted after the anchor line can be inspected. -/
def splitLines (s : Str) : List Str :=
  s.foldr
    (fun c acc =>
      if c = '\n' then [] :: acc
      else
        match acc with
        | [] => [[c]]
        | l :: ls => (c :: l) :: ls)
    [[]]

/-- Leading whitespace (indentation) of one line. -/
def leadingWS (l : Str) : Str := l.takeWhile isIndentChar

/-! Basic lemmas about the embedded Python string primitives. -/

theorem isSubstr_iff {pat s : Str} : isSubstr pat s = true ↔ pat <:+: s := by
  induction s with
  | nil => simp [isSubstr, List.isEmpty_iff, List.infix_nil]
  | cons c cs ih =>
    simp only [isSubstr, Bool.or_eq_true, List.isPrefixOf_iff_prefix, ih]
    exact List.infix_cons_iff.symm

theorem isSubstr_false_iff {pat s : Str} : isSubstr pat s = false ↔ ¬ pat <:+: s := by
  rw [← isSubstr_iff]
  cases isSubstr pat s <;> simp

theorem replAux_skip (old new : Str) : ∀ (k : Nat) (s : Str),
    replAux old new k s = replAux old new 0 (s.drop k) := by
  intro k s
  induction s generalizing k with
  | nil => cases k <;> rfl
  | cons c cs ih =>
    cases k with
    | zero => rw [List.drop_zero]
    | succ k =>
      rw [List.drop_succ_cons, ← ih k]
      rfl

theorem replaceAll_pos {old : Str} (new : Str) {s : Str} (h1 : old ≠ [])
    (h2 : old.isPrefixOf s = true) :
    replaceAll old new s = new ++ replaceAll old new (s.drop old.length) := by
  cases s with
  | nil =>
    rw [List.isPrefixOf_iff_prefix] at h2
    exact absurd (List.prefix_nil.mp h2) h1
  | cons c cs =>
    obtain ⟨k, hk⟩ : ∃ k, old.length = k + 1 :=
      ⟨old.length - 1, (Nat.succ_pred_eq_of_pos (List.length_pos.mpr h1)).symm⟩
    have hg : (old.isPrefixOf (c :: cs) && !old.isEmpty) = true := by
      simp [h2, List.isEmpty_iff, h1]
    unfold replaceAll
    simp only [replAux, hg, if_true, hk, Nat.add_sub_cancel, List.drop_succ_cons]
    rw [replAux_skip]

theorem replaceAll_neg {old : Str} (new : Str) {c : Char} {cs : Str}
    (h : old.isPrefixOf (c :: cs) = false) :
    replaceAll old new (c :: cs) = c :: replaceAll old new cs := by
  unfold replaceAll
  simp [replAux, h]

theorem replaceAll_not_substr {old new s : Str} (h : isSubstr old s = false) :
    replaceAll old new s = s := by
  induction s with
  | nil => rfl
  | cons c cs ih =>
    have h' : old.isPrefixOf (c :: cs) = false ∧ isSubstr old cs = false := by
      simpa only [isSubstr, Bool.or_eq_false_iff] using h
    rw [replaceAll_neg new h'.1, ih h'.2]

theorem infix_new_replaceAll {old new : Str} (h1 : old ≠ []) :
    ∀ s : Str, old <:+: s → new <:+: replaceAll old new s := by
  intro s
  induction s with
  | nil =>
    intro h2
    rw [List.infix_nil] at h2
    exact absurd h2 h1
  | cons c cs ih =>
    intro h2
    by_cases hp : old.isPrefixOf (c :: cs) = true
    · rw [replaceAll_pos new h1 hp]
      exact (List.prefix_append new _).isInfix
    · rw [replaceAll_neg new (Bool.eq_false_iff.mpr hp)]
      have h2' : old <:+: cs := by
        rcases List.infix_cons_iff.mp h2 with h | h
        · exact absurd (List.isPrefixOf_iff_prefix.mpr h) hp
        · exact h
      exact List.infix_cons (ih h2')

theorem substr_new_of_substr_old {old new s : Str} (h1 : old ≠ [])
    (h2 : isSubstr old s = true) :
    isSubstr new (replaceAll old new s) = true := by
  rw [isSubstr_iff] at h2 ⊢
  exact infix_new_replaceAll h1 s h2

theorem replaceFirst_pos {old : Str} (new : Str) {s : Str} (h1 : old ≠ [])
    (h2 : old.isPrefixOf s = true) :
    replaceFirst old new s = new ++ s.drop old.length := by
  cases s with
  | nil =>
    rw [List.isPrefixOf_iff_prefix] at h2
    exact absurd (List.prefix_nil.mp h2) h1
  | cons c cs =>
    have hg : (old.isPrefixOf (c :: cs) && !old.isEmpty) = true := by
      simp [h2, List.isEmpty_iff, h1]
    simp only [replaceFirst, hg, if_true]

theorem replaceFirst_neg {old : Str} (new : Str) {c : Char} {cs : Str}
    (h : old.isPrefixOf (c :: cs) = false) :
    replaceFirst old new (c :: cs) = c :: replaceFirst old new cs := by
  simp [replaceFirst, h]

theorem prefix_decomp {old s : Str} (h : old.isPrefixOf s = true) :
    old ++ s.drop old.length = s := by
  have h' := List.prefix_iff_eq_take.mp (List.isPrefixOf_iff_prefix.mp h)
  conv_rhs => rw [← List.take_append_drop old.length s]
  rw [← h']

theorem ancNl_ne_nil (m : Str) : ancNl m ≠ [] := by
  simp [ancNl, anchor]

/-! Lemmas about fix_virtualization.py (v1). -/

theorem v1Step_twice (C m : Str) : (v1Step ((v1Step C m).1) m).1 = (v1Step C m).1 := by
  by_cases g : (isSubstr (anchor m) C && !(isSubstr (disabledMark m) C)) = true
  · have h1 : v1Step C m = (replaceAll (ancNl m) (v1Repl m) C, true) := by
      simp only [v1Step, g, if_true]
    by_cases ho : isSubstr (ancNl m) C = true
    · have hnew : isSubstr (v1Repl m) (replaceAll (ancNl m) (v1Repl m) C) = true :=
        substr_new_of_substr_old (ancNl_ne_nil m) ho
      have hpre : disabledMark m <+: v1Repl m := by
        obtain ⟨t, ht⟩ : ("\n    enabled: false".toList : Str) <+:
            ("\n    enabled: false,".toList : Str) := by
          rw [← List.isPrefixOf_iff_prefix]
          decide
        exact ⟨t, by rw [disabledMark, v1Repl, List.append_assoc, ht]⟩
      have hdm : isSubstr (disabledMark m) (replaceAll (ancNl m) (v1Repl m) C) = true := by
        rw [isSubstr_iff]
        exact hpre.isInfix.trans (isSubstr_iff.mp hnew)
      have g2 : (isSubstr (anchor m) (replaceAll (ancNl m) (v1Repl m) C) &&
          !(isSubstr (disabledMark m) (replaceAll (ancNl m) (v1Repl m) C))) = false := by
        rw [hdm]
        simp
      rw [h1]
      simp only [v1Step, g2, Bool.false_eq_true, if_false]
    · have hC' : replaceAll (ancNl m) (v1Repl m) C = C :=
        replaceAll_not_substr (by simpa using ho)
      rw [h1, hC']
      rw [h1, hC']
  · have h1 : v1Step C m = (C, false) := by
      simp only [v1Step, g, Bool.false_eq_true, if_false]
    rw [h1, h1]

/-! Lemmas about fix_virtualization3.py (v3): the regex search, the
already-present check, and stability of both under the script's own
insertion. -/

theorem isPrefixOf_true_of {l s : Str} (h : l <+: s) : l.isPrefixOf s = true :=
  List.isPrefixOf_iff_prefix.mpr h

theorem replaceFirst_nil_pat (new : Str) : ∀ s : Str, replaceFirst [] new s = s := by
  intro s
  induction s with
  | nil => rfl
  | cons c cs ih =>
    simp only [replaceFirst, List.isEmpty_nil, Bool.not_true, Bool.and_false,
      Bool.false_eq_true, if_false, ih]

theorem v3Search_pos {anc s : Str} (hne : s ≠ []) (hc : v3Cond anc s = true) :
    v3Search anc s = some ((s.drop anc.length).takeWhile isIndentChar,
                           (s.drop anc.length).dropWhile isIndentChar) := by
  cases s with
  | nil => exact absurd rfl hne
  | cons c cs => simp only [v3Search, hc, if_true]

theorem v3Search_neg {anc : Str} {c : Char} {cs : Str} (hc : v3Cond anc (c :: cs) = false) :
    v3Search anc (c :: cs) = v3Search anc cs := by
  simp only [v3Search, hc, Bool.false_eq_true, if_false]

theorem ne_nil_of_isEmpty_false {l : Str} (h : l.isEmpty = false) : l ≠ [] := by
  cases l <;> simp_all

theorem v3Search_ind_spec {anc : Str} :
    ∀ {s ind after : Str}, v3Search anc s = some (ind, after) →
      ind ≠ [] ∧ (∀ c ∈ ind, isIndentChar c = true) := by
  intro s
  induction s with
  | nil => intro ind after h; simp [v3Search] at h
  | cons c cs ih =>
    intro ind after h
    by_cases hc : v3Cond anc (c :: cs) = true
    · rw [v3Search_pos (by simp) hc, Option.some_inj, Prod.mk.injEq] at h
      obtain ⟨h1, _⟩ := h
      have hc2 := hc
      unfold v3Cond at hc2
      rw [Bool.and_eq_true] at hc2
      constructor
      · have h2 : ((List.drop anc.length (c :: cs)).takeWhile isIndentChar).isEmpty
            = false := by simpa using hc2.2
        rw [← h1]
        exact ne_nil_of_isEmpty_false h2
      · intro a ha
        rw [← h1] at ha
        exact List.mem_takeWhile_imp ha
    · rw [v3Search_neg (Bool.eq_false_iff.mpr hc)] at h
      exact ih h

theorem v3Cond_decomp {anc s : Str} (hc : v3Cond anc s = true) :
    s = anc ++ (s.drop anc.length).takeWhile isIndentChar
          ++ (s.drop anc.length).dropWhile isIndentChar := by
  have hc' := hc
  unfold v3Cond at hc'
  rw [Bool.and_eq_true] at hc'
  have hpre := hc'.1
  conv_lhs => rw [← prefix_decomp hpre,
    ← List.takeWhile_append_dropWhile (p := isIndentChar) (l := s.drop anc.length)]
  rw [List.append_assoc]

theorem takeWhile_all_append {p : Char → Bool} {l₁ : Str}
    (h : ∀ c ∈ l₁, p c = true) (l₂ : Str) :
    (l₁ ++ l₂).takeWhile p = l₁ ++ l₂.takeWhile p := by
  induction l₁ with
  | nil => simp
  | cons a l ih =>
    rw [List.cons_append, List.takeWhile_cons, if_pos (h a (by simp))]
    rw [ih (fun c hc => h c (by simp [hc]))]
    rfl

theorem dropWhile_all_append {p : Char → Bool} {l₁ : Str}
    (h : ∀ c ∈ l₁, p c = true) (l₂ : Str) :
    (l₁ ++ l₂).dropWhile p = l₂.dropWhile p := by
  induction l₁ with
  | nil => simp
  | cons a l ih =>
    rw [List.cons_append, List.dropWhile_cons, if_pos (h a (by simp))]
    exact ih (fun c hc => h c (by simp [hc]))

theorem dropWhile_of_takeWhile_nil {p : Char → Bool} {l : Str}
    (h : l.takeWhile p = []) : l.dropWhile p = l := by
  cases l with
  | nil => rfl
  | cons a l =>
    rw [List.takeWhile_cons] at h
    by_cases hp : p a = true
    · rw [if_pos hp] at h
      exact absurd h (by simp)
    · rw [List.dropWhile_cons, if_neg hp]

theorem takeWhile_nil_append {p : Char → Bool} {l₁ : Str}
    (h : l₁.takeWhile p = []) (hne : l₁ ≠ []) (l₂ : Str) :
    (l₁ ++ l₂).takeWhile p = [] := by
  cases l₁ with
  | nil => exact absurd rfl hne
  | cons a l =>
    rw [List.takeWhile_cons] at h
    rw [List.cons_append, List.takeWhile_cons]
    by_cases hp : p a = true
    · rw [if_pos hp] at h
      exact absurd h (by simp)
    · rw [if_neg hp]

theorem dropWhile_nil_head_append {p : Char → Bool} {l₁ : Str}
    (h : l₁.takeWhile p = []) (hne : l₁ ≠ []) (l₂ : Str) :
    (l₁ ++ l₂).dropWhile p = l₁ ++ l₂ := by
  cases l₁ with
  | nil => exact absurd rfl hne
  | cons a l =>
    rw [List.takeWhile_cons] at h
    rw [List.cons_append, List.dropWhile_cons]
    by_cases hp : p a = true
    · rw [if_pos hp] at h
      exact absurd h (by simp)
    · rw [if_neg hp]

theorem take_replaceFirst_insert (full E : Str) :
    ∀ s : Str, (replaceFirst full (full ++ E) s).take full.length = s.take full.length := by
  intro s
  induction s with
  | nil => simp [replaceFirst]
  | cons c cs ih =>
    by_cases hfull : full = []
    · subst hfull
      rw [replaceFirst_nil_pat]
    · by_cases hp : full.isPrefixOf (c :: cs) = true
      · rw [replaceFirst_pos _ hfull hp, List.append_assoc, List.take_left]
        exact List.prefix_iff_eq_take.mp (List.isPrefixOf_iff_prefix.mp hp)
      · rw [replaceFirst_neg _ (Bool.eq_false_iff.mpr hp)]
        obtain ⟨k, hk⟩ : ∃ k, full.length = k + 1 :=
          ⟨full.length - 1, (Nat.succ_pred_eq_of_pos (List.length_pos.mpr hfull)).symm⟩
        rw [hk, List.take_succ_cons, List.take_succ_cons]
        congr 1
        have e1 : (replaceFirst full (full ++ E) cs).take k
            = ((replaceFirst full (full ++ E) cs).take (k + 1)).take k := by
          rw [List.take_take, min_eq_left (by omega)]
        have e2 : (cs.take (k + 1)).take k = cs.take k := by
          rw [List.take_take, min_eq_left (by omega)]
        rw [e1, ← hk, ih, hk, e2]

theorem takeWhile_isEmpty_eq_head {p : Char → Bool} (l : Str) :
    (l.takeWhile p).isEmpty = l.head?.elim true (fun a => !p a) := by
  cases l with
  | nil => rfl
  | cons a l =>
    rw [List.takeWhile_cons]
    cases hp : p a <;> simp [hp]

theorem v3Cond_congr {anc x y : Str}
    (h : x.take (anc.length + 1) = y.take (anc.length + 1)) :
    v3Cond anc x = v3Cond anc y := by
  have h1 : x.take anc.length = y.take anc.length := by
    calc x.take anc.length = (x.take (anc.length + 1)).take anc.length := by
          rw [List.take_take, min_eq_left (by omega)]
      _ = (y.take (anc.length + 1)).take anc.length := by rw [h]
      _ = y.take anc.length := by rw [List.take_take, min_eq_left (by omega)]
  have hpre : anc.isPrefixOf x = anc.isPrefixOf y := by
    have hiff : anc.isPrefixOf x = true ↔ anc.isPrefixOf y = true := by
      rw [List.isPrefixOf_iff_prefix, List.isPrefixOf_iff_prefix,
        List.prefix_iff_eq_take, List.prefix_iff_eq_take, h1]
    cases hx : anc.isPrefixOf x <;> cases hy : anc.isPrefixOf y <;> simp_all
  have hhead : (x.drop anc.length).head? = (y.drop anc.length).head? := by
    rw [List.head?_drop, List.head?_drop]
    have e : (x.take (anc.length + 1))[anc.length]? = (y.take (anc.length + 1))[anc.length]? := by
      rw [h]
    rwa [List.getElem?_take, List.getElem?_take, if_pos (by omega), if_pos (by omega)] at e
  unfold v3Cond
  rw [hpre, takeWhile_isEmpty_eq_head, takeWhile_isEmpty_eq_head, hhead]

theorem full_not_prefix_of_cond_false {anc ind : Str} {c : Char} {cs : Str}
    (hc : v3Cond anc (c :: cs) = false) (hne : ind ≠ [])
    (hind : ∀ a ∈ ind, isIndentChar a = true) :
    (anc ++ ind).isPrefixOf (c :: cs) = false := by
  cases hfull : (anc ++ ind).isPrefixOf (c :: cs) with
  | false => rfl
  | true =>
    exfalso
    have hpre : (anc ++ ind) <+: (c :: cs) := List.isPrefixOf_iff_prefix.mp hfull
    have hanc : anc <+: c :: cs := (List.prefix_append anc ind).trans hpre
    obtain ⟨t, ht⟩ := hpre
    have hdrop : (c :: cs).drop anc.length = ind ++ t := by
      rw [← ht, List.append_assoc, List.drop_left]
    have hcond : v3Cond anc (c :: cs) = true := by
      unfold v3Cond
      rw [isPrefixOf_true_of hanc, Bool.true_and, hdrop]
      cases ind with
      | nil => exact absurd rfl hne
      | cons a ind' =>
        rw [List.cons_append, List.takeWhile_cons, if_pos (hind a (by simp))]
        rfl
    rw [hcond] at hc
    exact Bool.noConfusion hc

theorem v3Search_insert {anc E : Str} (hE : E.takeWhile isIndentChar = [])
    (hEne : E ≠ []) :
    ∀ {s ind after : Str}, v3Search anc s = some (ind, after) →
      v3Search anc (replaceFirst (anc ++ ind) (anc ++ ind ++ E) s)
          = some (ind, E ++ after) ∧
      (replaceFirst (anc ++ ind) (anc ++ ind ++ E) s).length = s.length + E.length := by
  intro s
  induction s with
  | nil => intro ind after h; simp [v3Search] at h
  | cons c cs ih =>
    intro ind after h
    obtain ⟨hindne, hindall⟩ := v3Search_ind_spec h
    by_cases hc : v3Cond anc (c :: cs) = true
    · rw [v3Search_pos (by simp) hc, Option.some_inj, Prod.mk.injEq] at h
      obtain ⟨hTW, hDW⟩ := h
      have hdecomp : (c :: cs : Str) = (anc ++ ind) ++ after := by
        rw [List.append_assoc]
        have := v3Cond_decomp hc
        rw [hTW, hDW] at this
        rw [← List.append_assoc]
        exact this
      have hfullne : anc ++ ind ≠ [] := by simp [hindne]
      have hfullpre : (anc ++ ind).isPrefixOf (c :: cs) = true := by
        rw [hdecomp]
        exact isPrefixOf_true_of (List.prefix_append _ _)
      have hRF : replaceFirst (anc ++ ind) (anc ++ ind ++ E) (c :: cs)
          = ((anc ++ ind) ++ E) ++ after := by
        rw [replaceFirst_pos _ hfullne hfullpre]
        conv_lhs => rw [hdecomp]
        rw [List.drop_left]
      constructor
      · rw [hRF]
        have hcond : v3Cond anc (((anc ++ ind) ++ E) ++ after) = true := by
          unfold v3Cond
          have hd : ((((anc ++ ind) ++ E) ++ after : Str)).drop anc.length
              = ind ++ (E ++ after) := by
            rw [List.append_assoc, List.append_assoc, List.drop_left]
          rw [hd, Bool.and_eq_true]
          constructor
          · exact isPrefixOf_true_of
              (by rw [List.append_assoc, List.append_assoc]; exact List.prefix_append _ _)
          · rw [takeWhile_all_append hindall, takeWhile_nil_append hE hEne,
              List.append_nil]
            simp [List.isEmpty_iff, hindne]
        have hXne : (((anc ++ ind) ++ E) ++ after : Str) ≠ [] := by
          intro hx
          rw [List.append_eq_nil, List.append_eq_nil] at hx
          exact hEne hx.1.2
        rw [v3Search_pos (by simpa using hXne) hcond]
        have hd : ((((anc ++ ind) ++ E) ++ after : Str)).drop anc.length
            = ind ++ (E ++ after) := by
          rw [List.append_assoc, List.append_assoc, List.drop_left]
        rw [hd, takeWhile_all_append hindall, takeWhile_nil_append hE hEne,
          List.append_nil, dropWhile_all_append hindall,
          dropWhile_nil_head_append hE hEne]
      · rw [hRF, hdecomp]
        simp only [List.length_append]
        omega
    · have hcf : v3Cond anc (c :: cs) = false := Bool.eq_false_iff.mpr hc
      rw [v3Search_neg hcf] at h
      have hnp : (anc ++ ind).isPrefixOf (c :: cs) = false :=
        full_not_prefix_of_cond_false hcf hindne hindall
      have hRF : replaceFirst (anc ++ ind) (anc ++ ind ++ E) (c :: cs)
          = c :: replaceFirst (anc ++ ind) (anc ++ ind ++ E) cs :=
        replaceFirst_neg _ hnp
      obtain ⟨ih1, ih2⟩ := ih h
      constructor
      · rw [hRF]
        have hlen : anc.length ≤ (anc ++ ind).length := by
          simp only [List.length_append]
          omega
        have htake : (c :: replaceFirst (anc ++ ind) (anc ++ ind ++ E) cs).take
              (anc.length + 1)
            = (c :: cs : Str).take (anc.length + 1) := by
          rw [List.take_succ_cons, List.take_succ_cons]
          congr 1
          calc (replaceFirst (anc ++ ind) (anc ++ ind ++ E) cs).take anc.length
              = ((replaceFirst (anc ++ ind) (anc ++ ind ++ E) cs).take
                  (anc ++ ind).length).take anc.length := by
                rw [List.take_take, min_eq_left hlen]
            _ = (cs.take (anc ++ ind).length).take anc.length := by
                rw [take_replaceFirst_insert]
            _ = cs.take anc.length := by rw [List.take_take, min_eq_left hlen]
        have hcond2 : v3Cond anc
            (c :: replaceFirst (anc ++ ind) (anc ++ ind ++ E) cs) = false := by
          rw [v3Cond_congr htake]
          exact hcf
        rw [v3Search_neg hcond2]
        exact ih1
      · rw [hRF]
        simp only [List.length_cons, ih2]
        omega

theorem pyStripRight_append {a : Str} (ha : a ≠ [])
    (hlast : isPyWS (a.getLast ha) = false) (Z : Str) :
    pyStripRight (a ++ Z) = a ++ pyStripRight Z := by
  unfold pyStripRight
  rw [List.reverse_append, List.dropWhile_append]
  by_cases hz : (Z.reverse.dropWhile isPyWS).isEmpty = true
  · rw [if_pos hz]
    have hznil : Z.reverse.dropWhile isPyWS = [] := by
      cases hzz : Z.reverse.dropWhile isPyWS
      · rfl
      · rw [hzz] at hz
        exact absurd hz (by simp)
    rw [hznil, List.reverse_nil, List.append_nil]
    have hrev : a.reverse = a.getLast ha :: a.dropLast.reverse := by
      conv_lhs => rw [← List.dropLast_append_getLast ha]
      rw [List.reverse_append]
      rfl
    rw [hrev, List.dropWhile_cons, if_neg (by simp [hlast]), ← hrev,
      List.reverse_reverse]
  · rw [if_neg hz, List.reverse_append, List.reverse_reverse]

theorem v3Check_efLine (X : Str) : v3Check (efLine ++ X) = true := by
  unfold v3Check
  have h50 : (efLine ++ X).take 50 = efLine ++ X.take 34 := by
    have he : (50 : Nat) = efLine.length + 34 := by decide
    rw [he, List.take_append]
  rw [h50]
  have hdw : (efLine ++ X.take 34).dropWhile isPyWS = efLine ++ X.take 34 := by
    rw [show efLine ++ X.take 34 = 'e' :: ("nabled: false,\n".toList ++ X.take 34)
      from rfl]
    rw [List.dropWhile_cons, if_neg (by decide)]
  unfold pyStrip
  rw [hdw]
  have hsplit : efLine ++ X.take 34
      = "enabled: false,".toList ++ ("\n".toList ++ X.take 34) := by
    rw [← List.append_assoc]
    rfl
  rw [hsplit, pyStripRight_append (a := "enabled: false,".toList) (by decide)
    (by decide)]
  refine isPrefixOf_true_of ?_
  have h1 : enabledStr <+: "enabled: false,".toList :=
    List.isPrefixOf_iff_prefix.mp (by decide)
  exact h1.trans (List.prefix_append _ _)

theorem v3Step_twice (C m : Str) : (v3Step ((v3Step C m).1) m).1 = (v3Step C m).1 := by
  rcases hs : v3Search (ancNl m) C with _ | ⟨ind, after⟩
  · have h1 : v3Step C m = (C, Outcome.notFound) := by
      simp only [v3Step, hs]
    rw [h1, h1]
  · by_cases hchk : v3Check after = true
    · have h1 : v3Step C m = (C, Outcome.skipped) := by
        simp only [v3Step, hs, hchk, if_true]
      rw [h1, h1]
    · have hchk' : v3Check after = false := Bool.eq_false_iff.mpr hchk
      have h1 : v3Step C m
          = (replaceFirst (ancNl m ++ ind) (ancNl m ++ ind ++ efLine ++ ind) C,
             Outcome.applied) := by
        simp only [v3Step, hs, hchk', Bool.false_eq_true, if_false]
      have hE1 : (efLine ++ ind).takeWhile isIndentChar = [] := by
        rw [show efLine ++ ind = 'e' :: ("nabled: false,\n".toList ++ ind) from rfl]
        rw [List.takeWhile_cons, if_neg (by decide)]
      have hE2 : efLine ++ ind ≠ [] := by simp [efLine]
      have hassoc : ancNl m ++ ind ++ efLine ++ ind
          = ancNl m ++ ind ++ (efLine ++ ind) := by
        rw [List.append_assoc (ancNl m ++ ind)]
      have hins := (v3Search_insert hE1 hE2 hs).1
      have h2 : v3Step (replaceFirst (ancNl m ++ ind)
          (ancNl m ++ ind ++ efLine ++ ind) C) m
          = (replaceFirst (ancNl m ++ ind) (ancNl m ++ ind ++ efLine ++ ind) C,
             Outcome.skipped) := by
        rw [hassoc]
        have hck : v3Check (efLine ++ ind ++ after) = true := by
          rw [List.append_assoc]
          exact v3Check_efLine _
        simp only [v3Step, hins, hck, if_true]
      rw [h1, h2]

/-! Further characterizations: search failure, decomposed replacement, and
the v4 loop. -/

theorem v3Search_none_of_not_substr {anc : Str} :
    ∀ {s : Str}, isSubstr anc s = false → v3Search anc s = none := by
  intro s
  induction s with
  | nil => intro _; rfl
  | cons c cs ih =>
    intro h
    have h' : anc.isPrefixOf (c :: cs) = false ∧ isSubstr anc cs = false := by
      simpa only [isSubstr, Bool.or_eq_false_iff] using h
    have hc : v3Cond anc (c :: cs) = false := by
      unfold v3Cond
      rw [h'.1, Bool.false_and]
    rw [v3Search_neg hc]
    exact ih h'.2

theorem substr_anchor_of_ancNl {m C : Str} (h : isSubstr (ancNl m) C = true) :
    isSubstr (anchor m) C = true := by
  rw [isSubstr_iff] at h ⊢
  exact ((List.prefix_append (anchor m) ("\n".toList)).isInfix).trans h

theorem not_substr_ancNl {m C : Str} (h : isSubstr (anchor m) C = false) :
    isSubstr (ancNl m) C = false := by
  cases h2 : isSubstr (ancNl m) C with
  | false => rfl
  | true => exact absurd (substr_anchor_of_ancNl h2) (by simp [h])

theorem v3Search_none_of_no_indent {anc : Str} :
    ∀ {s : Str},
      (∀ i < s.length, anc.isPrefixOf (s.drop i) = true →
        ((s.drop i).drop anc.length).takeWhile isIndentChar = []) →
      v3Search anc s = none := by
  intro s
  induction s with
  | nil => intro _; rfl
  | cons c cs ih =>
    intro h
    have hc : v3Cond anc (c :: cs) = false := by
      unfold v3Cond
      by_cases hp : anc.isPrefixOf (c :: cs) = true
      · have h0 := h 0 (by simp) (by simpa using hp)
        simp only [List.drop_zero] at h0
        rw [hp, Bool.true_and, h0]
        rfl
      · rw [Bool.eq_false_iff.mpr hp, Bool.false_and]
    rw [v3Search_neg hc]
    apply ih
    intro i hi hpre
    have h' := h (i + 1) (by simp only [List.length_cons]; omega)
      (by rw [List.drop_succ_cons]; exact hpre)
    rw [List.drop_succ_cons] at h'
    exact h'

theorem v3Step_applied_ne {C m : Str} (h : (v3Step C m).2 = Outcome.applied) :
    (v3Step C m).1 ≠ C := by
  rcases hs : v3Search (ancNl m) C with _ | ⟨ind, after⟩
  · simp only [v3Step, hs] at h
    exact Outcome.noConfusion h
  · by_cases hchk : v3Check after = true
    · simp only [v3Step, hs, hchk, if_true] at h
      exact Outcome.noConfusion h
    · have hE1 : (efLine ++ ind).takeWhile isIndentChar = [] := by
        rw [show efLine ++ ind = 'e' :: ("nabled: false,\n".toList ++ ind) from rfl]
        rw [List.takeWhile_cons, if_neg (by decide)]
      have hE2 : efLine ++ ind ≠ [] := by simp [efLine]
      have hlen := (v3Search_insert hE1 hE2 hs).2
      have hassoc : ancNl m ++ ind ++ efLine ++ ind
          = ancNl m ++ ind ++ (efLine ++ ind) := by
        rw [List.append_assoc (ancNl m ++ ind)]
      have h1 : (v3Step C m).1
          = replaceFirst (ancNl m ++ ind) (ancNl m ++ ind ++ (efLine ++ ind)) C := by
        simp only [v3Step, hs, Bool.eq_false_iff.mpr hchk, Bool.false_eq_true,
          if_false, hassoc]
      rw [h1]
      intro heq
      have hlc : C.length = C.length + (efLine ++ ind).length := by
        conv_lhs => rw [← heq]
        exact hlen
      have hef : 0 < (efLine ++ ind).length := by
        simp only [List.length_append]
        have : efLine.length = 16 := by decide
        omega
      omega

theorem v3Run_length (C : Str) (ms : List Str) : (v3Run C ms).2.length = ms.length := by
  induction ms generalizing C with
  | nil => rfl
  | cons m ms ih => simp [v3Run, ih]

theorem v4Step_not_substr {C : Str} {r : Str × Str} (h : isSubstr r.1 C = false) :
    v4Step C r = (C, Outcome.notFound) := by
  simp only [v4Step, h, Bool.false_eq_true, if_false]

theorem v4Step_content (C : Str) (r : Str × Str) :
    (v4Step C r).1 = replaceAll r.1 r.2 C := by
  by_cases g : isSubstr r.1 C = true
  · simp only [v4Step, g, if_true]
  · rw [v4Step_not_substr (Bool.eq_false_iff.mpr g),
      replaceAll_not_substr (Bool.eq_false_iff.mpr g)]

theorem v4Step_twice {C : Str} {r : Str × Str}
    (h : isSubstr r.1 (replaceAll r.1 r.2 C) = false) :
    (v4Step ((v4Step C r).1) r).1 = (v4Step C r).1 := by
  rw [v4Step_content ((v4Step C r).1) r, v4Step_content C r,
    replaceAll_not_substr h]

theorem replaceAll_skip {old new : Str} :
    ∀ (A T : Str), (∀ i < A.length, old.isPrefixOf ((A ++ T).drop i) = false) →
      replaceAll old new (A ++ T) = A ++ replaceAll old new T := by
  intro A
  induction A with
  | nil => intro T _; simp
  | cons a A ih =>
    intro T h
    have h0 : old.isPrefixOf (a :: (A ++ T)) = false := by
      have := h 0 (by simp)
      simpa using this
    rw [List.cons_append, replaceAll_neg _ h0, ih T ?_, List.cons_append]
    intro i hi
    have h' := h (i + 1) (by simp only [List.length_cons]; omega)
    rw [List.cons_append, List.drop_succ_cons] at h'
    exact h'

theorem replaceAll_head {old new : Str} (h : old ≠ []) (T : Str) :
    replaceAll old new (old ++ T) = new ++ replaceAll old new T := by
  rw [replaceAll_pos new h (isPrefixOf_true_of (List.prefix_append _ _)),
    List.drop_left]

theorem replaceAll_two_occ {old new : Str} (hne : old ≠ []) (A B D : Str)
    (h1 : ∀ i < A.length,
      old.isPrefixOf ((A ++ (old ++ (B ++ (old ++ D)))).drop i) = false)
    (h2 : ∀ i < B.length, old.isPrefixOf ((B ++ (old ++ D)).drop i) = false)
    (h3 : isSubstr old D = false) :
    replaceAll old new (A ++ (old ++ (B ++ (old ++ D))))
      = A ++ (new ++ (B ++ (new ++ D))) := by
  rw [replaceAll_skip _ _ h1, replaceAll_head hne, replaceAll_skip _ _ h2,
    replaceAll_head hne, replaceAll_not_substr h3]

/-! Claim theorems. -/

/-- C1, counterexample: the patcher is not idempotent for every content and
every rule list.  The single replace-literal rule old = `ab`, new = `a` on
content `abb` yields `ab` on the first run and `a` on the second: the
replacement recreated the old literal, so it is not self-neutralizing. -/
theorem claim_C1_counterexample :
    (v4Run ((v4Run "abb".toList [("ab".toList, "a".toList)]).1)
        [("ab".toList, "a".toList)]).1
      ≠ (v4Run "abb".toList [("ab".toList, "a".toList)]).1 := by decide

/-- C1, amended: applying a single rule twice is idempotent for the insert
rules of fix_virtualization.py and fix_virtualization3.py (every content,
every module: the second run is neutralized by the rule's idempotence
check), and for a replace-literal rule of fix_virtualization4.py under the
proviso that the old literal no longer occurs in the replaced content —
which the original claim wrongly took for granted. -/
theorem claim_C1_amended :
    (∀ C m, (v1Run ((v1Run C [m]).1) [m]).1 = (v1Run C [m]).1) ∧
    (∀ C m, (v3Run ((v3Run C [m]).1) [m]).1 = (v3Run C [m]).1) ∧
    (∀ C (r : Str × Str), isSubstr r.1 (replaceAll r.1 r.2 C) = false →
        (v4Run ((v4Run C [r]).1) [r]).1 = (v4Run C [r]).1) := by
  refine ⟨fun C m => ?_, fun C m => ?_, fun C r h => ?_⟩
  · exact v1Step_twice C m
  · exact v3Step_twice C m
  · exact v4Step_twice h

/-- C1, witness for the amended theorem: a concrete replace-literal rule
whose old literal is gone after the first run is idempotent. -/
theorem claim_C1_amended_witness :
    (v4Run ((v4Run "xaby".toList [("ab".toList, "cd".toList)]).1)
        [("ab".toList, "cd".toList)]).1
      = (v4Run "xaby".toList [("ab".toList, "cd".toList)]).1 :=
  claim_C1_amended.2.2 "xaby".toList ("ab".toList, "cd".toList) (by decide)

/-- C2 (confirmed): a rule whose matcher does not occur leaves the content
unchanged and is a reportable, non-fatal not-found: fix_virtualization3.py
reports `Not found` and continues with the remaining modules;
fix_virtualization4.py takes its unlogged else branch; fix_profiling.py and
fix_virtualization.py leave the content unchanged. -/
theorem claim_C2_noop_on_missing_anchor :
    (∀ C m, isSubstr (anchor m) C = false → v3Step C m = (C, Outcome.notFound)) ∧
    (∀ C m ms, isSubstr (anchor m) C = false →
        v3Run C (m :: ms) = ((v3Run C ms).1, Outcome.notFound :: (v3Run C ms).2)) ∧
    (∀ C (r : Str × Str), isSubstr r.1 C = false →
        v4Step C r = (C, Outcome.notFound)) ∧
    (∀ C, isSubstr oldSdk C = false → fixProfiling C = C) ∧
    (∀ C m, isSubstr (anchor m) C = false → v1Step C m = (C, false)) := by
  have hv3 : ∀ C m, isSubstr (anchor m) C = false →
      v3Step C m = (C, Outcome.notFound) := by
    intro C m h
    have hs := v3Search_none_of_not_substr (not_substr_ancNl h)
    simp only [v3Step, hs]
  refine ⟨hv3, fun C m ms h => ?_, fun C r h => v4Step_not_substr h,
    fun C h => replaceAll_not_substr h, fun C m h => ?_⟩
  · simp only [v3Run, hv3 C m h]
  · simp only [v1Step, h, Bool.false_and, Bool.false_eq_true, if_false]

/-- C2, witness: the missing-anchor behavior at concrete inputs. -/
theorem claim_C2_witness :
    v3Step "hello".toList "kern".toList = ("hello".toList, Outcome.notFound) ∧
    v4Step "hello".toList ("xyz".toList, "q".toList)
      = ("hello".toList, Outcome.notFound) ∧
    fixProfiling "hello".toList = "hello".toList ∧
    v1Step "hello".toList "kern".toList = ("hello".toList, false) :=
  ⟨claim_C2_noop_on_missing_anchor.1 "hello".toList "kern".toList (by decide),
   claim_C2_noop_on_missing_anchor.2.2.1 "hello".toList
     ("xyz".toList, "q".toList) (by decide),
   claim_C2_noop_on_missing_anchor.2.2.2.1 "hello".toList (by decide),
   claim_C2_noop_on_missing_anchor.2.2.2.2 "hello".toList "kern".toList (by decide)⟩

/-- C3, counterexample: the inserted line's indentation is not derived from
the anchor line.  With the anchor line indented by two spaces,
fix_virtualization.py inserts a line indented by exactly four spaces, and
fix_virtualization3.py (anchor line two spaces, following line four spaces)
also inserts at four spaces: in both cases the inserted property line's
leading whitespace differs from the anchor line's leading whitespace W. -/
theorem claim_C3_counterexample :
    splitLines ((v1Step "  name: \"k\",\nz".toList "k".toList).1)
      = ["  name: \"k\",".toList, "    enabled: false,z".toList] ∧
    leadingWS ("  name: \"k\",".toList) = "  ".toList ∧
    leadingWS ("    enabled: false,z".toList) = "    ".toList ∧
    (v3Step "  name: \"x\",\n    b".toList "x".toList).1
      = "  name: \"x\",\n    enabled: false,\n    b".toList ∧
    leadingWS ("    enabled: false,".toList) ≠ leadingWS ("  name: \"x\",".toList)
    := by decide

/-- C3, amended: the indentation of the inserted line is fixed, not derived
from the anchor line: fix_virtualization3.py copies the leading whitespace
of the line immediately following the anchor line (whatever that
indentation is), and fix_virtualization.py always inserts with a hardcoded
four-space indent (its substitution text is `v1Repl`, which carries the
literal `\n    enabled: false,`). -/
theorem claim_C3_amended :
    (∀ m ind rest, ind ≠ [] → (∀ c ∈ ind, isIndentChar c = true) →
        rest.takeWhile isIndentChar = [] → v3Check rest = false →
        v3Step (ancNl m ++ ind ++ rest) m
          = (ancNl m ++ ind ++ efLine ++ ind ++ rest, Outcome.applied)) ∧
    (∀ C m, (v1Step C m).1 = C ∨
        (v1Step C m).1 = replaceAll (ancNl m) (v1Repl m) C) := by
  constructor
  · intro m ind rest hne hall hrest hchk
    have hXne : (ancNl m ++ ind ++ rest : Str) ≠ [] := by
      intro hx
      rw [List.append_eq_nil, List.append_eq_nil] at hx
      exact ancNl_ne_nil m hx.1.1
    have hdrop : ((ancNl m ++ ind ++ rest : Str)).drop (ancNl m).length
        = ind ++ rest := by
      rw [List.append_assoc, List.drop_left]
    have hTW : ((ind ++ rest : Str)).takeWhile isIndentChar = ind := by
      rw [takeWhile_all_append hall, hrest, List.append_nil]
    have hDW : ((ind ++ rest : Str)).dropWhile isIndentChar = rest := by
      rw [dropWhile_all_append hall, dropWhile_of_takeWhile_nil hrest]
    have hcond : v3Cond (ancNl m) (ancNl m ++ ind ++ rest) = true := by
      unfold v3Cond
      rw [hdrop, hTW, Bool.and_eq_true]
      constructor
      · exact isPrefixOf_true_of
          (by rw [List.append_assoc]; exact List.prefix_append _ _)
      · simp [List.isEmpty_iff, hne]
    have hsearch := v3Search_pos hXne hcond
    rw [hdrop, hTW, hDW] at hsearch
    have hfullne : ancNl m ++ ind ≠ [] := by
      intro hx
      rw [List.append_eq_nil] at hx
      exact ancNl_ne_nil m hx.1
    have hfullpre : (ancNl m ++ ind).isPrefixOf (ancNl m ++ ind ++ rest) = true :=
      isPrefixOf_true_of (List.prefix_append _ _)
    have hRF : replaceFirst (ancNl m ++ ind) (ancNl m ++ ind ++ efLine ++ ind)
          (ancNl m ++ ind ++ rest)
        = ancNl m ++ ind ++ efLine ++ ind ++ rest := by
      rw [replaceFirst_pos _ hfullne hfullpre, List.drop_left]
    simp only [v3Step, hsearch, hchk, Bool.false_eq_true, if_false, hRF]
  · intro C m
    by_cases g : (isSubstr (anchor m) C && !(isSubstr (disabledMark m) C)) = true
    · right
      simp only [v1Step, g, if_true]
    · left
      simp only [v1Step, Bool.eq_false_iff.mpr g, Bool.false_eq_true, if_false]

/-- C3, witness for the amended theorem: a two-space following line gives a
two-space insertion in fix_virtualization3.py. -/
theorem claim_C3_amended_witness :
    v3Step (ancNl "k".toList ++ "  ".toList ++ "b\x7d".toList) "k".toList
      = (ancNl "k".toList ++ "  ".toList ++ efLine ++ "  ".toList ++ "b\x7d".toList,
         Outcome.applied) :=
  claim_C3_amended.1 "k".toList "  ".toList "b\x7d".toList (by decide) (by decide)
    (by decide) (by decide)

/-- C4 (confirmed): a replace-literal rule of fix_virtualization4.py replaces
every occurrence of the old literal in one run and reports applied: on a
content with exactly two (non-overlapping) occurrences — decomposed as
A ++ old ++ B ++ old ++ D with no occurrence starting inside A or B and none
in D — both occurrences become the new literal. -/
theorem claim_C4_replace_all_occurrences :
    ∀ (A B D old new : Str), old ≠ [] →
      (∀ i < A.length,
        old.isPrefixOf ((A ++ (old ++ (B ++ (old ++ D)))).drop i) = false) →
      (∀ i < B.length, old.isPrefixOf ((B ++ (old ++ D)).drop i) = false) →
      isSubstr old D = false →
      v4Step (A ++ (old ++ (B ++ (old ++ D)))) (old, new)
        = (A ++ (new ++ (B ++ (new ++ D))), Outcome.applied) := by
  intro A B D old new hne h1 h2 h3
  have hsub : isSubstr old (A ++ (old ++ (B ++ (old ++ D)))) = true := by
    rw [isSubstr_iff]
    exact ⟨A, B ++ (old ++ D), by simp [List.append_assoc]⟩
  simp only [v4Step, hsub, if_true]
  rw [replaceAll_two_occ hne A B D h1 h2 h3]

/-- C4, witness: Scenario C with the script's actual literal pair, two
occurrences, both replaced. -/
theorem claim_C4_witness :
    v4Step ("x ".toList ++ ("\":old_ref\"".toList ++
        (", y: ".toList ++ ("\":old_ref\"".toList ++ " z".toList))))
      ("\":old_ref\"".toList, "\":empty_file\"".toList)
      = ("x ".toList ++ ("\":empty_file\"".toList ++
          (", y: ".toList ++ ("\":empty_file\"".toList ++ " z".toList))),
         Outcome.applied) :=
  claim_C4_replace_all_occurrences "x ".toList ", y: ".toList " z".toList
    "\":old_ref\"".toList "\":empty_file\"".toList (by decide) (by decide)
    (by decide) (by decide)

/-- C5 (confirmed): when the idempotence check holds, the rule leaves the
content exactly unchanged — fix_virtualization3.py reports
skipped-already-present, fix_virtualization.py's guard skips the module —
and, in particular, running the same insert rule a second time in sequence
yields unchanged content, for every content. -/
theorem claim_C5_skip_preserves_content :
    (∀ C m ind after, v3Search (ancNl m) C = some (ind, after) →
        v3Check after = true → v3Step C m = (C, Outcome.skipped)) ∧
    (∀ C m, isSubstr (disabledMark m) C = true → v1Step C m = (C, false)) ∧
    (∀ C m, (v3Step ((v3Step C m).1) m).1 = (v3Step C m).1) ∧
    (∀ C m, (v1Step ((v1Step C m).1) m).1 = (v1Step C m).1) := by
  refine ⟨fun C m ind after hs hchk => ?_, fun C m h => ?_,
    v3Step_twice, v1Step_twice⟩
  · simp only [v3Step, hs, hchk, if_true]
  · simp only [v1Step, h, Bool.not_true, Bool.and_false, Bool.false_eq_true,
      if_false]

/-- C5, witness: a module whose `enabled:` property is already present is
skipped with unchanged content. -/
theorem claim_C5_witness :
    v3Step "name: \"x\",\n    enabled: true,\n".toList "x".toList
      = ("name: \"x\",\n    enabled: true,\n".toList, Outcome.skipped) ∧
    v1Step "name: \"x\",\n    enabled: false,\n".toList "x".toList
      = ("name: \"x\",\n    enabled: false,\n".toList, false) :=
  ⟨claim_C5_skip_preserves_content.1 "name: \"x\",\n    enabled: true,\n".toList
     "x".toList "    ".toList "enabled: true,\n".toList (by decide) (by decide),
   claim_C5_skip_preserves_content.2.1 "name: \"x\",\n    enabled: false,\n".toList
     "x".toList (by decide)⟩

/-- C6, counterexample: two rules whose matchers never overlap in the
content (here `a` does not occur in `b` at all) are not order independent:
replacing `a` by `x` and `b` by `a` on content `b` gives `a` in one order
and `x` in the other, because the second rule's replacement creates a fresh
occurrence of the first rule's matcher. -/
theorem claim_C6_counterexample :
    isSubstr "a".toList "b".toList = false ∧
    (v4Run "b".toList [("a".toList, "x".toList), ("b".toList, "a".toList)]).1
      ≠ (v4Run "b".toList [("b".toList, "a".toList), ("a".toList, "x".toList)]).1
    := by decide

/-- C6, amended: order independence of two replace-literal rules holds when
the rules stay disjoint through application — if one matcher occurs neither
before nor after the other rule's replacement, or if the content splits as
A ++ B with each rule acting entirely inside its own half both before and
after the other rule runs.  Non-overlap in the original content alone does
not suffice. -/
theorem claim_C6_amended :
    (∀ C (r1 r2 : Str × Str), isSubstr r2.1 C = false →
        isSubstr r2.1 ((v4Step C r1).1) = false →
        (v4Run C [r1, r2]).1 = (v4Run C [r2, r1]).1) ∧
    (∀ (A B : Str) (r1 r2 : Str × Str),
        replaceAll r1.1 r1.2 (A ++ B) = replaceAll r1.1 r1.2 A ++ B →
        replaceAll r2.1 r2.2 (A ++ B) = A ++ replaceAll r2.1 r2.2 B →
        replaceAll r2.1 r2.2 (replaceAll r1.1 r1.2 A ++ B)
          = replaceAll r1.1 r1.2 A ++ replaceAll r2.1 r2.2 B →
        replaceAll r1.1 r1.2 (A ++ replaceAll r2.1 r2.2 B)
          = replaceAll r1.1 r1.2 A ++ replaceAll r2.1 r2.2 B →
        (v4Run (A ++ B) [r1, r2]).1 = (v4Run (A ++ B) [r2, r1]).1) := by
  constructor
  · intro C r1 r2 h1 h2
    show (v4Step ((v4Step C r1).1) r2).1 = (v4Step ((v4Step C r2).1) r1).1
    rw [v4Step_not_substr h2, v4Step_not_substr h1]
  · intro A B r1 r2 h1 h2 h3 h4
    show (v4Step ((v4Step (A ++ B) r1).1) r2).1
        = (v4Step ((v4Step (A ++ B) r2).1) r1).1
    simp only [v4Step_content]
    rw [h1, h3, h2, h4]

/-- C6, witness: a not-found second rule commutes, and rules acting in
disjoint halves commute. -/
theorem claim_C6_amended_witness :
    (v4Run "xy".toList [("x".toList, "q".toList), ("zz".toList, "w".toList)]).1
      = (v4Run "xy".toList [("zz".toList, "w".toList), ("x".toList, "q".toList)]).1 ∧
    (v4Run ("xa".toList ++ "yc".toList)
        [("a".toList, "b".toList), ("c".toList, "d".toList)]).1
      = (v4Run ("xa".toList ++ "yc".toList)
          [("c".toList, "d".toList), ("a".toList, "b".toList)]).1 :=
  ⟨claim_C6_amended.1 "xy".toList ("x".toList, "q".toList)
     ("zz".toList, "w".toList) (by decide) (by decide),
   claim_C6_amended.2 "xa".toList "yc".toList ("a".toList, "b".toList)
     ("c".toList, "d".toList) (by decide) (by decide) (by decide) (by decide)⟩

/-- C7 (confirmed, on the filesystem model): when the target file does not
exist the run performs no file operation (in particular no write and no file
creation) and exits with a nonzero status; on success the single write
carries the completely transformed content, computed in memory before the
write, and the exit status is 0. -/
theorem claim_C7_read_failure_aborts :
    v1Script none = (none, 1, []) ∧
    (v1Script none).2.1 ≠ 0 ∧
    (∀ c, v1Script (some c)
        = (some ((v1Run c v1Mods).1), 0,
           [FileEvent.fileRead, FileEvent.fileWrite ((v1Run c v1Mods).1)])) :=
  ⟨rfl, by decide, fun _ => rfl⟩

/-- C8, counterexample: fix_virtualization.py's reporting does not reflect
the actual outcome: on content `name: "k",x` (anchor present but not
followed by a newline) the guard passes, so a `Disabled: k` line is printed,
yet the substitution matches nothing and the content is unchanged; and on
empty content the rule prints no line at all instead of a not-found line. -/
theorem claim_C8_counterexample :
    (v1Step "name: \"k\",x".toList "k".toList).2 = true ∧
    (v1Step "name: \"k\",x".toList "k".toList).1 = "name: \"k\",x".toList ∧
    (v1Step [] "k".toList).2 = false := by decide

/-- C8, amended: fix_virtualization3.py emits exactly one outcome line per
rule and the line reflects the rule's actual effect (applied implies the
content changed; skipped or not-found imply it is unchanged), while
fix_virtualization.py prints its `Disabled:` line exactly when its guard
passes — which can happen without any content change — and prints nothing
for skipped or not-found modules. -/
theorem claim_C8_amended :
    (∀ C ms, (v3Run C ms).2.length = ms.length) ∧
    (∀ C m, (v3Step C m).2 = Outcome.applied → (v3Step C m).1 ≠ C) ∧
    (∀ C m, (v3Step C m).2 = Outcome.skipped ∨ (v3Step C m).2 = Outcome.notFound →
        (v3Step C m).1 = C) ∧
    (∀ C m, (v1Step C m).2
        = (isSubstr (anchor m) C && !(isSubstr (disabledMark m) C))) := by
  refine ⟨v3Run_length, fun C m h => v3Step_applied_ne h, fun C m h => ?_,
    fun C m => ?_⟩
  · rcases hs : v3Search (ancNl m) C with _ | ⟨ind, after⟩
    · simp only [v3Step, hs]
    · by_cases hchk : v3Check after = true
      · simp only [v3Step, hs, hchk, if_true]
      · exfalso
        have happ : (v3Step C m).2 = Outcome.applied := by
          simp only [v3Step, hs, Bool.eq_false_iff.mpr hchk, Bool.false_eq_true,
            if_false]
        rcases h with h | h <;> rw [happ] at h <;> exact Outcome.noConfusion h
  · by_cases g : (isSubstr (anchor m) C && !(isSubstr (disabledMark m) C)) = true
    · rw [g]
      simp only [v1Step, g, if_true]
    · rw [Bool.eq_false_iff.mpr g]
      simp only [v1Step, Bool.eq_false_iff.mpr g, Bool.false_eq_true, if_false]

/-- C8, witness for the amended theorem: one line per rule, and an applied
v3 rule really changes the content. -/
theorem claim_C8_amended_witness :
    (v3Run "q".toList ["x".toList]).2.length = 1 ∧
    (v3Step "name: \"x\",\n    b".toList "x".toList).1
      ≠ "name: \"x\",\n    b".toList :=
  ⟨claim_C8_amended.1 "q".toList ["x".toList],
   claim_C8_amended.2.1 "name: \"x\",\n    b".toList "x".toList (by decide)⟩

/-- C9 (confirmed): fix_virtualization.py's already-disabled check is global
over the whole content: if some occurrence of the module already carries the
disabled mark, nothing is modified at all; if none does, the substitution
inserts the property after every occurrence of `name: "<m>",\n` in the one
run (content decomposed around two such occurrences). -/
theorem claim_C9_global_check :
    (∀ C m, isSubstr (disabledMark m) C = true → v1Step C m = (C, false)) ∧
    (∀ (A B D m : Str),
        (∀ i < A.length, (ancNl m).isPrefixOf
            ((A ++ (ancNl m ++ (B ++ (ancNl m ++ D)))).drop i) = false) →
        (∀ i < B.length, (ancNl m).isPrefixOf ((B ++ (ancNl m ++ D)).drop i) = false) →
        isSubstr (ancNl m) D = false →
        isSubstr (disabledMark m) (A ++ (ancNl m ++ (B ++ (ancNl m ++ D)))) = false →
        v1Step (A ++ (ancNl m ++ (B ++ (ancNl m ++ D)))) m
          = (A ++ (v1Repl m ++ (B ++ (v1Repl m ++ D))), true)) := by
  constructor
  · intro C m h
    simp only [v1Step, h, Bool.not_true, Bool.and_false, Bool.false_eq_true,
      if_false]
  · intro A B D m h1 h2 h3 h4
    have hanc : isSubstr (anchor m) (A ++ (ancNl m ++ (B ++ (ancNl m ++ D)))) = true := by
      apply substr_anchor_of_ancNl
      rw [isSubstr_iff]
      exact ⟨A, B ++ (ancNl m ++ D), by simp [List.append_assoc]⟩
    have hg : (isSubstr (anchor m) (A ++ (ancNl m ++ (B ++ (ancNl m ++ D)))) &&
        !(isSubstr (disabledMark m) (A ++ (ancNl m ++ (B ++ (ancNl m ++ D)))))) = true := by
      rw [hanc, h4]
      rfl
    simp only [v1Step, hg, if_true]
    rw [replaceAll_two_occ (ancNl_ne_nil m) A B D h1 h2 h3]

/-- C9, witness: a module occurring twice, not yet disabled, gets the
property inserted after both occurrences. -/
theorem claim_C9_witness :
    v1Step ("q\n".toList ++ (ancNl "k".toList ++
        ("w\n".toList ++ (ancNl "k".toList ++ "r".toList)))) "k".toList
      = ("q\n".toList ++ (v1Repl "k".toList ++
          ("w\n".toList ++ (v1Repl "k".toList ++ "r".toList))), true) :=
  claim_C9_global_check.2 "q\n".toList "w\n".toList "r".toList "k".toList
    (by decide) (by decide) (by decide) (by decide)

/-- C10 (confirmed): fix_virtualization3.py patches a module only when the
anchor line is immediately followed by an indented line: if every occurrence
of `name: "<m>",\n` is followed by a character that is not a space or tab
(for example a closing brace in column 0), the module is reported Not found
and the content is unmodified, even though the anchor string is present. -/
theorem claim_C10_requires_indented_next_line :
    ∀ C m, isSubstr (ancNl m) C = true →
      (∀ i < C.length, (ancNl m).isPrefixOf (C.drop i) = true →
          ((C.drop i).drop (ancNl m).length).takeWhile isIndentChar = []) →
      v3Step C m = (C, Outcome.notFound) := by
  intro C m _ h
  have hs := v3Search_none_of_no_indent h
  simp only [v3Step, hs]

/-- C10, witness: an anchor followed by a column-0 closing brace is reported
Not found. -/
theorem claim_C10_witness :
    v3Step "name: \"k\",\n\x7d".toList "k".toList
      = ("name: \"k\",\n\x7d".toList, Outcome.notFound) :=
  claim_C10_requires_indented_next_line "name: \"k\",\n\x7d".toList "k".toList
    (by decide) (by decide)

end Aosp
